import Mathlib

/-!
Verification of the forum-report merge in
openedx/contrib/stanford/data_forums.py.

The only algorithmic core of the file is merge_join_course_forums, which
merges three per-kind, date-sorted aggregate streams (threads, responses,
comments) into one chronological list.  Each record is a document whose
_id field carries year, month, day and a type tag; the remaining metric
fields (posts, net_points, up_votes, down_votes) do not influence the
merge and are modelled by an opaque payload number.

The Python loop keeps three indices t_index, r_index, c_index into the
three input lists.  Here each index is represented by the still
unconsumed suffix of its list.  Per iteration the loop builds
date(year, month, day) for each non-exhausted stream (which raises
ValueError on an invalid calendar date, modelled as MergeError.dataError)
and uses date.max as the sentinel for an exhausted stream; list indexing
past the end (which Python would surface as IndexError) is modelled as
MergeError.indexError.  A date compares lexicographically on
(year, month, day); since month and day of constructed dates are below
100, the numeric key (year * 100 + month) * 100 + day realises exactly
that order, and date.max = 9999-12-31 is dateMax.
-/

namespace DataForums

/-- The three record kinds produced by generate_course_forums_query:
CommentThread documents, Comment documents without a parent_id
(responses) and Comment documents with a parent_id (comments). -/
inductive Kind where
  | thread
  | response
  | comment
deriving DecidableEq

/-- One aggregated row: the _id of the Mongo group (year, month, day and
the kind tag) plus a payload standing for the metric fields. -/
structure ForumRecord where
  year : Nat
  month : Nat
  day : Nat
  payload : Nat
  kind : Kind
deriving DecidableEq

/-- Gregorian leap-year rule, as used by Python datetime. -/
def isLeapYear (y : Nat) : Bool :=
  (y % 4 == 0 && y % 100 != 0) || (y % 400 == 0)

/-- Number of days of month m in year y (months outside 1..12 are
rejected by isValidDate before this matters). -/
def daysInMonth (y m : Nat) : Nat :=
  if m == 2 then (if isLeapYear y then 29 else 28)
  else if m == 4 || m == 6 || m == 9 || m == 11 then 30
  else 31

/-- Python date(y, m, d) succeeds exactly on these triples
(MINYEAR = 1, MAXYEAR = 9999). -/
def isValidDate (y m d : Nat) : Bool :=
  decide (1 ≤ y ∧ y ≤ 9999 ∧ 1 ≤ m ∧ m ≤ 12 ∧ 1 ≤ d ∧ d ≤ daysInMonth y m)

/-- Numeric key realising the lexicographic (year, month, day) order of
Python dates, for month ≤ 12 and day ≤ 31. -/
def dateKey (y m d : Nat) : Nat := (y * 100 + m) * 100 + d

/-- Key of date.max = date(9999, 12, 31), the exhaustion sentinel of the
merge loop. -/
def dateMax : Nat := dateKey 9999 12 31

/-- Date key of a record. -/
def recKey (rec : ForumRecord) : Nat := dateKey rec.year rec.month rec.day

/-- The record carries a valid calendar date. -/
def validRecord (rec : ForumRecord) : Prop :=
  isValidDate rec.year rec.month rec.day = true

instance : DecidablePred validRecord := fun rec =>
  inferInstanceAs (Decidable (isValidDate rec.year rec.month rec.day = true))

/-- Errors the loop body can raise: ValueError from the date constructor
on an invalid calendar date, IndexError from indexing past the end of a
list. -/
inductive MergeError where
  | dataError
  | indexError
deriving DecidableEq

/-- Python date(rec.year, rec.month, rec.day): validates the triple and
yields its comparison key. -/
def recordDate (rec : ForumRecord) : Except MergeError Nat :=
  if isValidDate rec.year rec.month rec.day then Except.ok (recKey rec)
  else Except.error MergeError.dataError

/-- Date key seen at the current position of one stream: date.max when
the index has passed the end (lines 115-129 of the source), otherwise
the constructed date of the current record. -/
def frontDate : List ForumRecord → Except MergeError Nat
  | [] => Except.ok dateMax
  | rec :: _ => recordDate rec

/-- One execution of the merge loop of merge_join_course_forums.  The
three unconsumed suffixes stand for the indices; fuel bounds the number
of iterations and is irrelevant whenever it is at least the total input
length, since every iteration either raises or consumes one record. -/
def mergeGo (fuel : Nat) (ts rs cs : List ForumRecord) :
    Except MergeError (List ForumRecord) :=
  if ts.isEmpty && rs.isEmpty && cs.isEmpty then
    Except.ok []
  else
    match fuel with
    | 0 => Except.error MergeError.indexError
    | fuel + 1 =>
      Except.bind (frontDate ts) (fun thread_date =>
        Except.bind (frontDate rs) (fun response_date =>
          Except.bind (frontDate cs) (fun comment_date =>
            if thread_date ≤ comment_date ∧ thread_date ≤ response_date then
              List.casesOn ts (Except.error MergeError.indexError)
                (fun rec ts2 =>
                  Except.map (fun ds => rec :: ds) (mergeGo fuel ts2 rs cs))
            else if response_date ≤ thread_date ∧ response_date ≤ comment_date then
              List.casesOn rs (Except.error MergeError.indexError)
                (fun rec rs2 =>
                  Except.map (fun ds => rec :: ds) (mergeGo fuel ts rs2 cs))
            else
              List.casesOn cs (Except.error MergeError.indexError)
                (fun rec cs2 =>
                  Except.map (fun ds => rec :: ds) (mergeGo fuel ts rs cs2)))))

/-- merge_join_course_forums (lines 106-142 of the source): run the loop
on the three full input lists.  The loop needs at most one iteration per
input record, so the fuel below is always sufficient. -/
def merge_join_course_forums (threads responses comments : List ForumRecord) :
    Except MergeError (List ForumRecord) :=
  mergeGo (threads.length + responses.length + comments.length)
    threads responses comments

theorem mergeGo_zero (ts rs cs : List ForumRecord) :
    mergeGo 0 ts rs cs =
      if ts.isEmpty && rs.isEmpty && cs.isEmpty then Except.ok []
      else Except.error MergeError.indexError := rfl

theorem mergeGo_succ (fuel : Nat) (ts rs cs : List ForumRecord) :
    mergeGo (fuel + 1) ts rs cs =
      if ts.isEmpty && rs.isEmpty && cs.isEmpty then
        Except.ok []
      else
        Except.bind (frontDate ts) (fun thread_date =>
          Except.bind (frontDate rs) (fun response_date =>
            Except.bind (frontDate cs) (fun comment_date =>
              if thread_date ≤ comment_date ∧ thread_date ≤ response_date then
                List.casesOn ts (Except.error MergeError.indexError)
                  (fun rec ts2 =>
                    Except.map (fun ds => rec :: ds) (mergeGo fuel ts2 rs cs))
              else if response_date ≤ thread_date ∧ response_date ≤ comment_date then
                List.casesOn rs (Except.error MergeError.indexError)
                  (fun rec rs2 =>
                    Except.map (fun ds => rec :: ds) (mergeGo fuel ts rs2 cs))
              else
                List.casesOn cs (Except.error MergeError.indexError)
                  (fun rec cs2 =>
                    Except.map (fun ds => rec :: ds) (mergeGo fuel ts rs cs2))))) := rfl

/-- Every record of the list carries a valid calendar date. -/
abbrev allValid (l : List ForumRecord) : Prop := ∀ x ∈ l, validRecord x

/-- Every valid record of the list is dated strictly before the
date.max sentinel. -/
abbrev belowMax (l : List ForumRecord) : Prop :=
  ∀ x ∈ l, validRecord x → recKey x < dateMax

/-- Every record of the list is valid and dated strictly before
date.max. -/
abbrev goodList (l : List ForumRecord) : Prop :=
  ∀ x ∈ l, validRecord x ∧ recKey x < dateMax

/-- Key order between records, the order the merge is meant to produce. -/
def keyLE (a b : ForumRecord) : Prop := recKey a ≤ recKey b

instance : DecidableRel keyLE := fun a b =>
  inferInstanceAs (Decidable (recKey a ≤ recKey b))

/-- Priority rank of a kind in the fixed tie-break order of the merge. -/
def kindRank : Kind → Nat
  | Kind.thread => 0
  | Kind.response => 1
  | Kind.comment => 2

/-- Chronological order refined by the Thread, Response, Comment
tie-break on equal dates. -/
def lexLE (a b : ForumRecord) : Prop :=
  recKey a < recKey b ∨ (recKey a = recKey b ∧ kindRank a.kind ≤ kindRank b.kind)

instance : DecidableRel lexLE := fun a b =>
  inferInstanceAs
    (Decidable (recKey a < recKey b ∨
      (recKey a = recKey b ∧ kindRank a.kind ≤ kindRank b.kind)))

/-- Date key at the head of a list, date.max when the list is empty:
the value frontDate yields whenever it does not raise. -/
def eKey : List ForumRecord → Nat
  | [] => dateMax
  | rec :: _ => recKey rec

theorem exceptBind_ok {ε α β : Type} (a : α) (f : α → Except ε β) :
    Except.bind (Except.ok a) f = f a := rfl

theorem exceptBind_error {ε α β : Type} (e : ε) (f : α → Except ε β) :
    Except.bind (Except.error e : Except ε α) f = Except.error e := rfl

theorem exceptMap_ok {ε α β : Type} (f : α → β) (a : α) :
    Except.map f (Except.ok a : Except ε α) = Except.ok (f a) := rfl

theorem exceptMap_error {ε α β : Type} (f : α → β) (e : ε) :
    Except.map f (Except.error e : Except ε α) = Except.error e := rfl

theorem exceptMap_eq_ok {ε α β : Type} {f : α → β} {x : Except ε α} {b : β}
    (h : Except.map f x = Except.ok b) : ∃ a, x = Except.ok a ∧ b = f a := by
  cases x with
  | ok a =>
    rw [exceptMap_ok] at h
    exact ⟨a, rfl, (Except.ok.inj h).symm⟩
  | error e =>
    rw [exceptMap_error] at h
    exact Except.noConfusion h

theorem exceptMap_eq_error {ε α β : Type} {f : α → β} {x : Except ε α} {e : ε}
    (h : Except.map f x = Except.error e) : x = Except.error e := by
  cases x with
  | ok a => rw [exceptMap_ok] at h; exact Except.noConfusion h
  | error e2 => rw [exceptMap_error] at h
                exact congrArg Except.error (Except.error.inj h)

theorem listCases_cons {α β : Type} (a : α) (l : List α) (x : β)
    (f : α → List α → β) : (List.casesOn (a :: l) x f : β) = f a l := rfl

theorem listCases_nil {α β : Type} (x : β) (f : α → List α → β) :
    (List.casesOn ([] : List α) x f : β) = x := rfl

theorem empties_iff (ts rs cs : List ForumRecord) :
    (ts.isEmpty && rs.isEmpty && cs.isEmpty) = true ↔
      ts = [] ∧ rs = [] ∧ cs = [] := by
  cases ts <;> cases rs <;> cases cs <;> simp [List.isEmpty]

theorem frontDate_nil : frontDate [] = Except.ok dateMax := rfl

theorem frontDate_cons (rec : ForumRecord) (l : List ForumRecord) :
    frontDate (rec :: l) = recordDate rec := rfl

theorem recordDate_valid {rec : ForumRecord} (hv : validRecord rec) :
    recordDate rec = Except.ok (recKey rec) := by
  have hv2 : isValidDate rec.year rec.month rec.day = true := hv
  unfold recordDate
  rw [if_pos hv2]

theorem recordDate_invalid {rec : ForumRecord} (hv : ¬ validRecord rec) :
    recordDate rec = Except.error MergeError.dataError := by
  have hv2 : ¬ isValidDate rec.year rec.month rec.day = true := hv
  unfold recordDate
  rw [if_neg hv2]

theorem frontDate_cons_ok {rec : ForumRecord} {l : List ForumRecord} {d : Nat}
    (h : frontDate (rec :: l) = Except.ok d) :
    validRecord rec ∧ d = recKey rec := by
  rw [frontDate_cons] at h
  by_cases hv : validRecord rec
  · rw [recordDate_valid hv] at h
    exact ⟨hv, (Except.ok.inj h).symm⟩
  · rw [recordDate_invalid hv] at h
    exact Except.noConfusion h

theorem frontDate_ok_eKey {l : List ForumRecord} {d : Nat}
    (h : frontDate l = Except.ok d) : d = eKey l := by
  cases l with
  | nil => rw [frontDate_nil] at h; exact (Except.ok.inj h).symm
  | cons rec l2 => exact (frontDate_cons_ok h).2

theorem frontDate_error {l : List ForumRecord} {e : MergeError}
    (h : frontDate l = Except.error e) :
    e = MergeError.dataError ∧ ∃ rec ∈ l, ¬ validRecord rec := by
  cases l with
  | nil => rw [frontDate_nil] at h; exact Except.noConfusion h
  | cons rec l2 =>
    rw [frontDate_cons] at h
    by_cases hv : validRecord rec
    · rw [recordDate_valid hv] at h; exact Except.noConfusion h
    · rw [recordDate_invalid hv] at h
      exact ⟨(Except.error.inj h).symm, rec, List.mem_cons_self rec l2, hv⟩

theorem frontDate_valid_ok {l : List ForumRecord} (hv : allValid l) :
    frontDate l = Except.ok (eKey l) := by
  cases l with
  | nil => rfl
  | cons rec l2 =>
    rw [frontDate_cons, recordDate_valid (hv rec (List.mem_cons_self rec l2))]
    rfl

theorem daysInMonth_le_31 (y m : Nat) : daysInMonth y m ≤ 31 := by
  unfold daysInMonth
  split
  · split <;> omega
  · split <;> omega

theorem isValidDate_bounds {y m d : Nat} (h : isValidDate y m d = true) :
    1 ≤ y ∧ y ≤ 9999 ∧ 1 ≤ m ∧ m ≤ 12 ∧ 1 ≤ d ∧ d ≤ 31 := by
  unfold isValidDate at h
  rw [decide_eq_true_eq] at h
  have := daysInMonth_le_31 y m
  omega

theorem dateKey_le_max {y m d : Nat} (h : isValidDate y m d = true) :
    dateKey y m d ≤ dateMax := by
  have := isValidDate_bounds h
  simp only [dateMax, dateKey]
  omega

theorem validRecord_key_le_max {rec : ForumRecord} (h : validRecord rec) :
    recKey rec ≤ dateMax :=
  dateKey_le_max h

theorem sorted_eKey_le {l : List ForumRecord} (hs : List.Pairwise keyLE l)
    {x : ForumRecord} (hx : x ∈ l) : eKey l ≤ recKey x := by
  cases l with
  | nil => cases hx
  | cons h t =>
    rcases List.mem_cons.mp hx with rfl | hxt
    · exact Nat.le_refl _
    · exact (List.pairwise_cons.mp hs).1 x hxt

theorem mergeGo_nil (fuel : Nat) : mergeGo fuel [] [] [] = Except.ok [] := by
  cases fuel <;> rfl

theorem mergeGo_zero_ok {ts rs cs out : List ForumRecord}
    (h : mergeGo 0 ts rs cs = Except.ok out) :
    ts = [] ∧ rs = [] ∧ cs = [] ∧ out = [] := by
  rw [mergeGo_zero] at h
  by_cases hemp : (ts.isEmpty && rs.isEmpty && cs.isEmpty) = true
  · rw [if_pos hemp] at h
    obtain ⟨h1, h2, h3⟩ := (empties_iff ts rs cs).mp hemp
    exact ⟨h1, h2, h3, (Except.ok.inj h).symm⟩
  · rw [if_neg hemp] at h
    exact Except.noConfusion h

/-- Inversion of one successful iteration of the merge loop: either the
loop exits because all three streams are exhausted, or the three peeks
succeed and exactly one of the three branches fires, consumes the head
of its stream and prepends it to the recursive result. -/
theorem mergeGo_ok_cases (fuel : Nat) {ts rs cs out : List ForumRecord}
    (h : mergeGo (fuel + 1) ts rs cs = Except.ok out) :
    (ts = [] ∧ rs = [] ∧ cs = [] ∧ out = []) ∨
    ∃ td rd cd,
      frontDate ts = Except.ok td ∧ frontDate rs = Except.ok rd ∧
      frontDate cs = Except.ok cd ∧
      ((∃ rec ts2 rest, ts = rec :: ts2 ∧ (td ≤ cd ∧ td ≤ rd) ∧
          mergeGo fuel ts2 rs cs = Except.ok rest ∧ out = rec :: rest) ∨
       (∃ rec rs2 rest, rs = rec :: rs2 ∧ ¬ (td ≤ cd ∧ td ≤ rd) ∧
          (rd ≤ td ∧ rd ≤ cd) ∧
          mergeGo fuel ts rs2 cs = Except.ok rest ∧ out = rec :: rest) ∨
       (∃ rec cs2 rest, cs = rec :: cs2 ∧ ¬ (td ≤ cd ∧ td ≤ rd) ∧
          ¬ (rd ≤ td ∧ rd ≤ cd) ∧
          mergeGo fuel ts rs cs2 = Except.ok rest ∧ out = rec :: rest)) := by
  rw [mergeGo_succ] at h
  by_cases hemp : (ts.isEmpty && rs.isEmpty && cs.isEmpty) = true
  · rw [if_pos hemp] at h
    obtain ⟨h1, h2, h3⟩ := (empties_iff ts rs cs).mp hemp
    exact Or.inl ⟨h1, h2, h3, (Except.ok.inj h).symm⟩
  · rw [if_neg hemp] at h
    cases h1 : frontDate ts with
    | error e =>
      rw [h1, exceptBind_error] at h
      exact Except.noConfusion h
    | ok td =>
    rw [h1] at h
    simp only [exceptBind_ok] at h
    cases h2 : frontDate rs with
    | error e =>
      rw [h2, exceptBind_error] at h
      exact Except.noConfusion h
    | ok rd =>
    rw [h2] at h
    simp only [exceptBind_ok] at h
    cases h3 : frontDate cs with
    | error e =>
      rw [h3, exceptBind_error] at h
      exact Except.noConfusion h
    | ok cd =>
    rw [h3] at h
    simp only [exceptBind_ok] at h
    refine Or.inr ⟨td, rd, cd, rfl, rfl, rfl, ?_⟩
    by_cases hc1 : td ≤ cd ∧ td ≤ rd
    · rw [if_pos hc1] at h
      cases ts with
      | nil =>
        exact Except.noConfusion
          (show (Except.error MergeError.indexError :
              Except MergeError (List ForumRecord)) = Except.ok out from h)
      | cons rec ts2 =>
        have h4 : Except.map (fun ds => rec :: ds) (mergeGo fuel ts2 rs cs) =
            Except.ok out := h
        obtain ⟨rest, hrest, hout⟩ := exceptMap_eq_ok h4
        exact Or.inl ⟨rec, ts2, rest, rfl, hc1, hrest, hout⟩
    · rw [if_neg hc1] at h
      by_cases hc2 : rd ≤ td ∧ rd ≤ cd
      · rw [if_pos hc2] at h
        cases rs with
        | nil =>
          exact Except.noConfusion
            (show (Except.error MergeError.indexError :
                Except MergeError (List ForumRecord)) = Except.ok out from h)
        | cons rec rs2 =>
          have h4 : Except.map (fun ds => rec :: ds) (mergeGo fuel ts rs2 cs) =
              Except.ok out := h
          obtain ⟨rest, hrest, hout⟩ := exceptMap_eq_ok h4
          exact Or.inr (Or.inl ⟨rec, rs2, rest, rfl, hc1, hc2, hrest, hout⟩)
      · rw [if_neg hc2] at h
        cases cs with
        | nil =>
          exact Except.noConfusion
            (show (Except.error MergeError.indexError :
                Except MergeError (List ForumRecord)) = Except.ok out from h)
        | cons rec cs2 =>
          have h4 : Except.map (fun ds => rec :: ds) (mergeGo fuel ts rs cs2) =
              Except.ok out := h
          obtain ⟨rest, hrest, hout⟩ := exceptMap_eq_ok h4
          exact Or.inr (Or.inr ⟨rec, cs2, rest, rfl, hc1, hc2, hrest, hout⟩)

theorem allValid_nil : allValid [] := fun x hx => absurd hx (List.not_mem_nil x)

/-- Every successful run emits exactly one output record per input
record. -/
theorem mergeGo_length : ∀ (fuel : Nat) (ts rs cs out : List ForumRecord),
    mergeGo fuel ts rs cs = Except.ok out →
    out.length = ts.length + rs.length + cs.length := by
  intro fuel
  induction fuel with
  | zero =>
    intro ts rs cs out h
    obtain ⟨rfl, rfl, rfl, rfl⟩ := mergeGo_zero_ok h
    rfl
  | succ n ih =>
    intro ts rs cs out h
    rcases mergeGo_ok_cases n h with ⟨rfl, rfl, rfl, rfl⟩ |
      ⟨td, rd, cd, -, -, -, hbr⟩
    · rfl
    rcases hbr with ⟨rec, ts2, rest, rfl, -, hrec, rfl⟩ |
      ⟨rec, rs2, rest, rfl, -, -, hrec, rfl⟩ |
      ⟨rec, cs2, rest, rfl, -, -, hrec, rfl⟩
    · have := ih ts2 rs cs rest hrec
      simp only [List.length_cons]
      omega
    · have := ih ts rs2 cs rest hrec
      simp only [List.length_cons]
      omega
    · have := ih ts rs cs2 rest hrec
      simp only [List.length_cons]
      omega

/-- Every successful run emits exactly the input records: nothing is
dropped, duplicated or altered. -/
theorem mergeGo_perm : ∀ (fuel : Nat) (ts rs cs out : List ForumRecord),
    mergeGo fuel ts rs cs = Except.ok out →
    out.Perm (ts ++ rs ++ cs) := by
  intro fuel
  induction fuel with
  | zero =>
    intro ts rs cs out h
    obtain ⟨rfl, rfl, rfl, rfl⟩ := mergeGo_zero_ok h
    exact List.Perm.nil
  | succ n ih =>
    intro ts rs cs out h
    rcases mergeGo_ok_cases n h with ⟨rfl, rfl, rfl, rfl⟩ |
      ⟨td, rd, cd, -, -, -, hbr⟩
    · exact List.Perm.nil
    rcases hbr with ⟨rec, ts2, rest, rfl, -, hrec, rfl⟩ |
      ⟨rec, rs2, rest, rfl, -, -, hrec, rfl⟩ |
      ⟨rec, cs2, rest, rfl, -, -, hrec, rfl⟩
    · have h5 := ih ts2 rs cs rest hrec
      simp only [List.append_assoc, List.cons_append] at h5 ⊢
      exact h5.cons rec
    · have h5 := ih ts rs2 cs rest hrec
      simp only [List.append_assoc, List.cons_append] at h5 ⊢
      exact (h5.cons rec).trans List.perm_middle.symm
    · have h5 := ih ts rs cs2 rest hrec
      simp only [List.append_assoc, List.cons_append] at h5 ⊢
      exact (h5.cons rec).trans
        (List.perm_middle.symm.trans
          (List.Perm.append_left ts List.perm_middle.symm))

/-- A successful run has examined every input record, so every input
record carries a valid calendar date. -/
theorem mergeGo_valid : ∀ (fuel : Nat) (ts rs cs out : List ForumRecord),
    mergeGo fuel ts rs cs = Except.ok out →
    allValid ts ∧ allValid rs ∧ allValid cs := by
  intro fuel
  induction fuel with
  | zero =>
    intro ts rs cs out h
    obtain ⟨rfl, rfl, rfl, rfl⟩ := mergeGo_zero_ok h
    exact ⟨allValid_nil, allValid_nil, allValid_nil⟩
  | succ n ih =>
    intro ts rs cs out h
    rcases mergeGo_ok_cases n h with ⟨rfl, rfl, rfl, rfl⟩ |
      ⟨td, rd, cd, hft, hfr, hfc, hbr⟩
    · exact ⟨allValid_nil, allValid_nil, allValid_nil⟩
    rcases hbr with ⟨rec, ts2, rest, rfl, -, hrec, rfl⟩ |
      ⟨rec, rs2, rest, rfl, -, -, hrec, rfl⟩ |
      ⟨rec, cs2, rest, rfl, -, -, hrec, rfl⟩
    · obtain ⟨hv1, hv2, hv3⟩ := ih ts2 rs cs rest hrec
      refine ⟨?_, hv2, hv3⟩
      intro x hx
      rcases List.mem_cons.mp hx with rfl | hx2
      · exact (frontDate_cons_ok hft).1
      · exact hv1 x hx2
    · obtain ⟨hv1, hv2, hv3⟩ := ih ts rs2 cs rest hrec
      refine ⟨hv1, ?_, hv3⟩
      intro x hx
      rcases List.mem_cons.mp hx with rfl | hx2
      · exact (frontDate_cons_ok hfr).1
      · exact hv2 x hx2
    · obtain ⟨hv1, hv2, hv3⟩ := ih ts rs cs2 rest hrec
      refine ⟨hv1, hv2, ?_⟩
      intro x hx
      rcases List.mem_cons.mp hx with rfl | hx2
      · exact (frontDate_cons_ok hfc).1
      · exact hv3 x hx2

/-- When the three inputs are kind-pure, the subsequence of the output
drawn from one input is that input itself: the merge only interleaves,
it never reorders records of one stream. -/
theorem mergeGo_stable : ∀ (fuel : Nat) (ts rs cs out : List ForumRecord),
    (∀ x ∈ ts, x.kind = Kind.thread) →
    (∀ x ∈ rs, x.kind = Kind.response) →
    (∀ x ∈ cs, x.kind = Kind.comment) →
    mergeGo fuel ts rs cs = Except.ok out →
    out.filter (fun x => x.kind == Kind.thread) = ts ∧
    out.filter (fun x => x.kind == Kind.response) = rs ∧
    out.filter (fun x => x.kind == Kind.comment) = cs := by
  intro fuel
  induction fuel with
  | zero =>
    intro ts rs cs out hkt hkr hkc h
    obtain ⟨rfl, rfl, rfl, rfl⟩ := mergeGo_zero_ok h
    exact ⟨rfl, rfl, rfl⟩
  | succ n ih =>
    intro ts rs cs out hkt hkr hkc h
    rcases mergeGo_ok_cases n h with ⟨rfl, rfl, rfl, rfl⟩ |
      ⟨td, rd, cd, hft, hfr, hfc, hbr⟩
    · exact ⟨rfl, rfl, rfl⟩
    rcases hbr with ⟨rec, ts2, rest, rfl, -, hrec, rfl⟩ |
      ⟨rec, rs2, rest, rfl, -, -, hrec, rfl⟩ |
      ⟨rec, cs2, rest, rfl, -, -, hrec, rfl⟩
    · obtain ⟨e1, e2, e3⟩ := ih ts2 rs cs rest
        (fun x hx => hkt x (List.mem_cons_of_mem rec hx)) hkr hkc hrec
      have hk : rec.kind = Kind.thread := hkt rec (List.mem_cons_self rec ts2)
      refine ⟨?_, ?_, ?_⟩ <;> simp [List.filter_cons, hk, e1, e2, e3]
    · obtain ⟨e1, e2, e3⟩ := ih ts rs2 cs rest hkt
        (fun x hx => hkr x (List.mem_cons_of_mem rec hx)) hkc hrec
      have hk : rec.kind = Kind.response := hkr rec (List.mem_cons_self rec rs2)
      refine ⟨?_, ?_, ?_⟩ <;> simp [List.filter_cons, hk, e1, e2, e3]
    · obtain ⟨e1, e2, e3⟩ := ih ts rs cs2 rest hkt hkr
        (fun x hx => hkc x (List.mem_cons_of_mem rec hx)) hrec
      have hk : rec.kind = Kind.comment := hkc rec (List.mem_cons_self rec cs2)
      refine ⟨?_, ?_, ?_⟩ <;> simp [List.filter_cons, hk, e1, e2, e3]

theorem if_empties_neg {ts rs cs : List ForumRecord}
    (h : ¬ (ts = [] ∧ rs = [] ∧ cs = [])) {α : Type} (a b : α) :
    (if ts.isEmpty && rs.isEmpty && cs.isEmpty then a else b) = b :=
  if_neg (fun hc => h ((empties_iff ts rs cs).mp hc))

/-- A successful run of sorted inputs yields a sorted output, every
element of which is bounded below by one of the three front keys. -/
theorem mergeGo_sorted : ∀ (fuel : Nat) (ts rs cs out : List ForumRecord),
    List.Pairwise keyLE ts → List.Pairwise keyLE rs → List.Pairwise keyLE cs →
    mergeGo fuel ts rs cs = Except.ok out →
    List.Pairwise keyLE out ∧
      ∀ x ∈ out, eKey ts ≤ recKey x ∨ eKey rs ≤ recKey x ∨ eKey cs ≤ recKey x := by
  intro fuel
  induction fuel with
  | zero =>
    intro ts rs cs out hts hrs hcs h
    obtain ⟨rfl, rfl, rfl, rfl⟩ := mergeGo_zero_ok h
    exact ⟨List.Pairwise.nil, fun x hx => absurd hx (List.not_mem_nil x)⟩
  | succ n ih =>
    intro ts rs cs out hts hrs hcs h
    rcases mergeGo_ok_cases n h with ⟨rfl, rfl, rfl, rfl⟩ |
      ⟨td, rd, cd, hft, hfr, hfc, hbr⟩
    · exact ⟨List.Pairwise.nil, fun x hx => absurd hx (List.not_mem_nil x)⟩
    rcases hbr with ⟨rec, ts2, rest, rfl, hc1, hrec, rfl⟩ |
      ⟨rec, rs2, rest, rfl, hc1, hc2, hrec, rfl⟩ |
      ⟨rec, cs2, rest, rfl, hc1, hc2, hrec, rfl⟩
    · obtain ⟨hvrec, htd⟩ := frontDate_cons_ok hft
      have hrd : rd = eKey rs := frontDate_ok_eKey hfr
      have hcd : cd = eKey cs := frontDate_ok_eKey hfc
      obtain ⟨hts1, hts2⟩ := List.pairwise_cons.mp hts
      obtain ⟨hrest, hlb⟩ := ih ts2 rs cs rest hts2 hrs hcs hrec
      have hts2k : recKey rec ≤ eKey ts2 := by
        cases ts2 with
        | nil => exact validRecord_key_le_max hvrec
        | cons y l => exact hts1 y (List.mem_cons_self y l)
      have hmain : ∀ x ∈ rest, recKey rec ≤ recKey x := by
        intro x hx
        rcases hlb x hx with h1 | h1 | h1
        · exact le_trans hts2k h1
        · exact le_trans (show recKey rec ≤ eKey rs by omega) h1
        · exact le_trans (show recKey rec ≤ eKey cs by omega) h1
      refine ⟨List.pairwise_cons.mpr ⟨hmain, hrest⟩, ?_⟩
      intro x hx
      rcases List.mem_cons.mp hx with rfl | hx2
      · exact Or.inl (le_refl _)
      · exact Or.inl (hmain x hx2)
    · obtain ⟨hvrec, hrdk⟩ := frontDate_cons_ok hfr
      have htd : td = eKey ts := frontDate_ok_eKey hft
      have hcd : cd = eKey cs := frontDate_ok_eKey hfc
      obtain ⟨hrs1, hrs2⟩ := List.pairwise_cons.mp hrs
      obtain ⟨hrest, hlb⟩ := ih ts rs2 cs rest hts hrs2 hcs hrec
      have hrs2k : recKey rec ≤ eKey rs2 := by
        cases rs2 with
        | nil => exact validRecord_key_le_max hvrec
        | cons y l => exact hrs1 y (List.mem_cons_self y l)
      have hmain : ∀ x ∈ rest, recKey rec ≤ recKey x := by
        intro x hx
        rcases hlb x hx with h1 | h1 | h1
        · exact le_trans (show recKey rec ≤ eKey ts by omega) h1
        · exact le_trans hrs2k h1
        · exact le_trans (show recKey rec ≤ eKey cs by omega) h1
      refine ⟨List.pairwise_cons.mpr ⟨hmain, hrest⟩, ?_⟩
      intro x hx
      rcases List.mem_cons.mp hx with rfl | hx2
      · exact Or.inr (Or.inl (le_refl _))
      · exact Or.inr (Or.inl (hmain x hx2))
    · obtain ⟨hvrec, hcdk⟩ := frontDate_cons_ok hfc
      have htd : td = eKey ts := frontDate_ok_eKey hft
      have hrd : rd = eKey rs := frontDate_ok_eKey hfr
      obtain ⟨hcs1, hcs2⟩ := List.pairwise_cons.mp hcs
      obtain ⟨hrest, hlb⟩ := ih ts rs cs2 rest hts hrs hcs2 hrec
      have hccd : cd ≤ td ∧ cd ≤ rd := by omega
      have hcs2k : recKey rec ≤ eKey cs2 := by
        cases cs2 with
        | nil => exact validRecord_key_le_max hvrec
        | cons y l => exact hcs1 y (List.mem_cons_self y l)
      have hmain : ∀ x ∈ rest, recKey rec ≤ recKey x := by
        intro x hx
        rcases hlb x hx with h1 | h1 | h1
        · exact le_trans (show recKey rec ≤ eKey ts by omega) h1
        · exact le_trans (show recKey rec ≤ eKey rs by omega) h1
        · exact le_trans hcs2k h1
      refine ⟨List.pairwise_cons.mpr ⟨hmain, hrest⟩, ?_⟩
      intro x hx
      rcases List.mem_cons.mp hx with rfl | hx2
      · exact Or.inr (Or.inr (le_refl _))
      · exact Or.inr (Or.inr (hmain x hx2))

theorem frontDate_belowMax {l : List ForumRecord} {d : Nat} (hb : belowMax l)
    (h : frontDate l = Except.ok d) : d ≤ dateMax ∧ (dateMax ≤ d → l = []) := by
  cases l with
  | nil =>
    rw [frontDate_nil] at h
    exact ⟨le_of_eq (Except.ok.inj h).symm, fun _ => rfl⟩
  | cons rec l2 =>
    obtain ⟨hv, rfl⟩ := frontDate_cons_ok h
    have hlt := hb rec (List.mem_cons_self rec l2) hv
    exact ⟨le_of_lt hlt, fun hge => absurd (lt_of_le_of_lt hge hlt)
      (Nat.lt_irrefl dateMax)⟩

/-- If every valid input record is dated strictly before date.max, no
run of sufficient fuel raises IndexError: aside from the date.max
boundary, the merge never selects an exhausted stream. -/
theorem mergeGo_no_index_error : ∀ (fuel : Nat) (ts rs cs : List ForumRecord),
    belowMax ts → belowMax rs → belowMax cs →
    ts.length + rs.length + cs.length ≤ fuel →
    mergeGo fuel ts rs cs ≠ Except.error MergeError.indexError := by
  intro fuel
  induction fuel with
  | zero =>
    intro ts rs cs hb1 hb2 hb3 hlen h
    have ht : ts = [] := List.length_eq_zero.mp (by omega)
    have hr : rs = [] := List.length_eq_zero.mp (by omega)
    have hc : cs = [] := List.length_eq_zero.mp (by omega)
    subst ht; subst hr; subst hc
    rw [mergeGo_nil] at h
    exact Except.noConfusion h
  | succ n ih =>
    intro ts rs cs hb1 hb2 hb3 hlen h
    rw [mergeGo_succ] at h
    by_cases hemp : (ts.isEmpty && rs.isEmpty && cs.isEmpty) = true
    · rw [if_pos hemp] at h; exact Except.noConfusion h
    rw [if_neg hemp] at h
    cases h1 : frontDate ts with
    | error e =>
      rw [h1, exceptBind_error] at h
      have he := (frontDate_error h1).1
      rw [he] at h
      exact MergeError.noConfusion (Except.error.inj h)
    | ok td =>
    rw [h1] at h; simp only [exceptBind_ok] at h
    cases h2 : frontDate rs with
    | error e =>
      rw [h2, exceptBind_error] at h
      have he := (frontDate_error h2).1
      rw [he] at h
      exact MergeError.noConfusion (Except.error.inj h)
    | ok rd =>
    rw [h2] at h; simp only [exceptBind_ok] at h
    cases h3 : frontDate cs with
    | error e =>
      rw [h3, exceptBind_error] at h
      have he := (frontDate_error h3).1
      rw [he] at h
      exact MergeError.noConfusion (Except.error.inj h)
    | ok cd =>
    rw [h3] at h; simp only [exceptBind_ok] at h
    obtain ⟨htdle, htdmax⟩ := frontDate_belowMax hb1 h1
    obtain ⟨hrdle, hrdmax⟩ := frontDate_belowMax hb2 h2
    obtain ⟨hcdle, hcdmax⟩ := frontDate_belowMax hb3 h3
    by_cases hc1 : td ≤ cd ∧ td ≤ rd
    · rw [if_pos hc1] at h
      cases ts with
      | nil =>
        have htd : td = dateMax := frontDate_ok_eKey h1
        have hcs : cs = [] := hcdmax (by omega)
        have hrs : rs = [] := hrdmax (by omega)
        subst hcs; subst hrs
        exact hemp rfl
      | cons rec ts2 =>
        have h4 : Except.map (fun ds => rec :: ds) (mergeGo n ts2 rs cs) =
            Except.error MergeError.indexError := h
        exact ih ts2 rs cs
          (fun x hx hv => hb1 x (List.mem_cons_of_mem rec hx) hv) hb2 hb3
          (by simp only [List.length_cons] at hlen; omega)
          (exceptMap_eq_error h4)
    · rw [if_neg hc1] at h
      by_cases hc2 : rd ≤ td ∧ rd ≤ cd
      · rw [if_pos hc2] at h
        cases rs with
        | nil =>
          have hrd : rd = dateMax := frontDate_ok_eKey h2
          have hts : ts = [] := htdmax (by omega)
          have hcs : cs = [] := hcdmax (by omega)
          subst hts; subst hcs
          exact hemp rfl
        | cons rec rs2 =>
          have h4 : Except.map (fun ds => rec :: ds) (mergeGo n ts rs2 cs) =
              Except.error MergeError.indexError := h
          exact ih ts rs2 cs hb1
            (fun x hx hv => hb2 x (List.mem_cons_of_mem rec hx) hv) hb3
            (by simp only [List.length_cons] at hlen; omega)
            (exceptMap_eq_error h4)
      · rw [if_neg hc2] at h
        cases cs with
        | nil =>
          have hcd : cd = dateMax := frontDate_ok_eKey h3
          omega
        | cons rec cs2 =>
          have h4 : Except.map (fun ds => rec :: ds) (mergeGo n ts rs cs2) =
              Except.error MergeError.indexError := h
          exact ih ts rs cs2 hb1 hb2
            (fun x hx hv => hb3 x (List.mem_cons_of_mem rec hx) hv)
            (by simp only [List.length_cons] at hlen; omega)
            (exceptMap_eq_error h4)

/-- When every input record is valid, no run raises the invalid-date
error. -/
theorem mergeGo_no_data_error : ∀ (fuel : Nat) (ts rs cs : List ForumRecord),
    allValid ts → allValid rs → allValid cs →
    mergeGo fuel ts rs cs ≠ Except.error MergeError.dataError := by
  intro fuel
  induction fuel with
  | zero =>
    intro ts rs cs hv1 hv2 hv3 h
    rw [mergeGo_zero] at h
    by_cases hemp : (ts.isEmpty && rs.isEmpty && cs.isEmpty) = true
    · rw [if_pos hemp] at h; exact Except.noConfusion h
    · rw [if_neg hemp] at h
      exact MergeError.noConfusion (Except.error.inj h)
  | succ n ih =>
    intro ts rs cs hv1 hv2 hv3 h
    rw [mergeGo_succ] at h
    by_cases hemp : (ts.isEmpty && rs.isEmpty && cs.isEmpty) = true
    · rw [if_pos hemp] at h; exact Except.noConfusion h
    rw [if_neg hemp, frontDate_valid_ok hv1, frontDate_valid_ok hv2,
      frontDate_valid_ok hv3] at h
    simp only [exceptBind_ok] at h
    by_cases hc1 : eKey ts ≤ eKey cs ∧ eKey ts ≤ eKey rs
    · rw [if_pos hc1] at h
      cases ts with
      | nil =>
        have h4 : (Except.error MergeError.indexError :
            Except MergeError (List ForumRecord)) =
            Except.error MergeError.dataError := h
        exact MergeError.noConfusion (Except.error.inj h4)
      | cons rec ts2 =>
        have h4 : Except.map (fun ds => rec :: ds) (mergeGo n ts2 rs cs) =
            Except.error MergeError.dataError := h
        exact ih ts2 rs cs
          (fun x hx => hv1 x (List.mem_cons_of_mem rec hx)) hv2 hv3
          (exceptMap_eq_error h4)
    · rw [if_neg hc1] at h
      by_cases hc2 : eKey rs ≤ eKey ts ∧ eKey rs ≤ eKey cs
      · rw [if_pos hc2] at h
        cases rs with
        | nil =>
          have h4 : (Except.error MergeError.indexError :
              Except MergeError (List ForumRecord)) =
              Except.error MergeError.dataError := h
          exact MergeError.noConfusion (Except.error.inj h4)
        | cons rec rs2 =>
          have h4 : Except.map (fun ds => rec :: ds) (mergeGo n ts rs2 cs) =
              Except.error MergeError.dataError := h
          exact ih ts rs2 cs hv1
            (fun x hx => hv2 x (List.mem_cons_of_mem rec hx)) hv3
            (exceptMap_eq_error h4)
      · rw [if_neg hc2] at h
        cases cs with
        | nil =>
          have h4 : (Except.error MergeError.indexError :
              Except MergeError (List ForumRecord)) =
              Except.error MergeError.dataError := h
          exact MergeError.noConfusion (Except.error.inj h4)
        | cons rec cs2 =>
          have h4 : Except.map (fun ds => rec :: ds) (mergeGo n ts rs cs2) =
              Except.error MergeError.dataError := h
          exact ih ts rs cs2 hv1 hv2
            (fun x hx => hv3 x (List.mem_cons_of_mem rec hx))
            (exceptMap_eq_error h4)

/-- With valid dates strictly below the sentinel and sufficient fuel, the
merge loop runs to completion. -/
theorem mergeGo_good_ok (fuel : Nat) (ts rs cs : List ForumRecord)
    (h1 : goodList ts) (h2 : goodList rs) (h3 : goodList cs)
    (hlen : ts.length + rs.length + cs.length ≤ fuel) :
    ∃ out, mergeGo fuel ts rs cs = Except.ok out := by
  cases hres : mergeGo fuel ts rs cs with
  | ok out => exact ⟨out, rfl⟩
  | error e =>
    cases e with
    | dataError =>
      exact absurd hres (mergeGo_no_data_error fuel ts rs cs
        (fun x hx => (h1 x hx).1) (fun x hx => (h2 x hx).1)
        (fun x hx => (h3 x hx).1))
    | indexError =>
      exact absurd hres (mergeGo_no_index_error fuel ts rs cs
        (fun x hx _ => (h1 x hx).2) (fun x hx _ => (h2 x hx).2)
        (fun x hx _ => (h3 x hx).2) hlen)

/-- One unit of fuel beyond the total input length never matters. -/
theorem mergeGo_fuel_succ : ∀ (fuel : Nat) (ts rs cs : List ForumRecord),
    ts.length + rs.length + cs.length ≤ fuel →
    mergeGo (fuel + 1) ts rs cs = mergeGo fuel ts rs cs := by
  intro fuel
  induction fuel with
  | zero =>
    intro ts rs cs hlen
    have ht : ts = [] := List.length_eq_zero.mp (by omega)
    have hr : rs = [] := List.length_eq_zero.mp (by omega)
    have hc : cs = [] := List.length_eq_zero.mp (by omega)
    subst ht; subst hr; subst hc
    rfl
  | succ n ih =>
    intro ts rs cs hlen
    rw [mergeGo_succ, mergeGo_succ]
    by_cases hemp : (ts.isEmpty && rs.isEmpty && cs.isEmpty) = true
    · rw [if_pos hemp, if_pos hemp]
    rw [if_neg hemp, if_neg hemp]
    cases h1 : frontDate ts with
    | error e => rfl
    | ok td =>
    simp only [exceptBind_ok]
    cases h2 : frontDate rs with
    | error e => rfl
    | ok rd =>
    simp only [exceptBind_ok]
    cases h3 : frontDate cs with
    | error e => rfl
    | ok cd =>
    simp only [exceptBind_ok]
    by_cases hc1 : td ≤ cd ∧ td ≤ rd
    · rw [if_pos hc1, if_pos hc1]
      cases ts with
      | nil => rfl
      | cons rec ts2 =>
        show Except.map (fun ds => rec :: ds) (mergeGo (n + 1) ts2 rs cs) =
          Except.map (fun ds => rec :: ds) (mergeGo n ts2 rs cs)
        rw [ih ts2 rs cs (by simp only [List.length_cons] at hlen; omega)]
    · rw [if_neg hc1, if_neg hc1]
      by_cases hc2 : rd ≤ td ∧ rd ≤ cd
      · rw [if_pos hc2, if_pos hc2]
        cases rs with
        | nil => rfl
        | cons rec rs2 =>
          show Except.map (fun ds => rec :: ds) (mergeGo (n + 1) ts rs2 cs) =
            Except.map (fun ds => rec :: ds) (mergeGo n ts rs2 cs)
          rw [ih ts rs2 cs (by simp only [List.length_cons] at hlen; omega)]
      · rw [if_neg hc2, if_neg hc2]
        cases cs with
        | nil => rfl
        | cons rec cs2 =>
          show Except.map (fun ds => rec :: ds) (mergeGo (n + 1) ts rs cs2) =
            Except.map (fun ds => rec :: ds) (mergeGo n ts rs cs2)
          rw [ih ts rs cs2 (by simp only [List.length_cons] at hlen; omega)]

/-- Any fuel at least the total input length computes exactly the value
of merge_join_course_forums: the loop terminates within one iteration
per input record. -/
theorem mergeGo_fuel_ge (fuel : Nat) (ts rs cs : List ForumRecord)
    (h : ts.length + rs.length + cs.length ≤ fuel) :
    mergeGo fuel ts rs cs = merge_join_course_forums ts rs cs := by
  unfold merge_join_course_forums
  induction fuel, h using Nat.le_induction with
  | base => rfl
  | succ m hm ihm => rw [mergeGo_fuel_succ m ts rs cs hm, ihm]

/-- A single valid thread stream passes through unchanged. -/
theorem mergeGo_threads_only : ∀ (S : List ForumRecord) (fuel : Nat),
    S.length ≤ fuel → allValid S → mergeGo fuel S [] [] = Except.ok S := by
  intro S
  induction S with
  | nil => intro fuel _ _; exact mergeGo_nil fuel
  | cons rec S2 ihS =>
    intro fuel hlen hv
    cases fuel with
    | zero => simp only [List.length_cons] at hlen; omega
    | succ n =>
      have hvrec : validRecord rec := hv rec (List.mem_cons_self rec S2)
      have hk := validRecord_key_le_max hvrec
      have hrec : mergeGo n S2 [] [] = Except.ok S2 :=
        ihS n (by simp only [List.length_cons] at hlen; omega)
          (fun x hx => hv x (List.mem_cons_of_mem rec hx))
      rw [mergeGo_succ, if_empties_neg (by simp), frontDate_cons,
        recordDate_valid hvrec]
      simp only [frontDate_nil, exceptBind_ok]
      rw [if_pos ⟨hk, hk⟩]
      show Except.map (fun ds => rec :: ds) (mergeGo n S2 [] []) =
        Except.ok (rec :: S2)
      rw [hrec]
      rfl

/-- A single response stream, valid and strictly below the sentinel,
passes through unchanged. -/
theorem mergeGo_responses_only : ∀ (S : List ForumRecord) (fuel : Nat),
    S.length ≤ fuel → goodList S → mergeGo fuel [] S [] = Except.ok S := by
  intro S
  induction S with
  | nil => intro fuel _ _; exact mergeGo_nil fuel
  | cons rec S2 ihS =>
    intro fuel hlen hv
    cases fuel with
    | zero => simp only [List.length_cons] at hlen; omega
    | succ n =>
      have hvrec : validRecord rec := (hv rec (List.mem_cons_self rec S2)).1
      have hklt : recKey rec < dateMax := (hv rec (List.mem_cons_self rec S2)).2
      have hrec : mergeGo n [] S2 [] = Except.ok S2 :=
        ihS n (by simp only [List.length_cons] at hlen; omega)
          (fun x hx => hv x (List.mem_cons_of_mem rec hx))
      rw [mergeGo_succ, if_empties_neg (by simp), frontDate_cons,
        recordDate_valid hvrec]
      simp only [frontDate_nil, exceptBind_ok]
      rw [if_neg (show ¬ (dateMax ≤ dateMax ∧ dateMax ≤ recKey rec) by omega)]
      rw [if_pos ⟨le_of_lt hklt, le_of_lt hklt⟩]
      show Except.map (fun ds => rec :: ds) (mergeGo n [] S2 []) =
        Except.ok (rec :: S2)
      rw [hrec]
      rfl

/-- A single comment stream, valid and strictly below the sentinel,
passes through unchanged. -/
theorem mergeGo_comments_only : ∀ (S : List ForumRecord) (fuel : Nat),
    S.length ≤ fuel → goodList S → mergeGo fuel [] [] S = Except.ok S := by
  intro S
  induction S with
  | nil => intro fuel _ _; exact mergeGo_nil fuel
  | cons rec S2 ihS =>
    intro fuel hlen hv
    cases fuel with
    | zero => simp only [List.length_cons] at hlen; omega
    | succ n =>
      have hvrec : validRecord rec := (hv rec (List.mem_cons_self rec S2)).1
      have hklt : recKey rec < dateMax := (hv rec (List.mem_cons_self rec S2)).2
      have hrec : mergeGo n [] [] S2 = Except.ok S2 :=
        ihS n (by simp only [List.length_cons] at hlen; omega)
          (fun x hx => hv x (List.mem_cons_of_mem rec hx))
      rw [mergeGo_succ, if_empties_neg (by simp), frontDate_cons,
        recordDate_valid hvrec]
      simp only [frontDate_nil, exceptBind_ok]
      rw [if_neg (show ¬ (dateMax ≤ recKey rec ∧ dateMax ≤ dateMax) by omega)]
      rw [if_neg (show ¬ (dateMax ≤ dateMax ∧ dateMax ≤ recKey rec) by omega)]
      show Except.map (fun ds => rec :: ds) (mergeGo n [] [] S2) =
        Except.ok (rec :: S2)
      rw [hrec]
      rfl

/-- On a tied date the earlier the kind is in the Thread, Response,
Comment priority order, the earlier its records appear: every successful
run of sorted kind-pure inputs is sorted for the lexicographic order on
(dateKey, kindRank). -/
theorem mergeGo_lex : ∀ (fuel : Nat) (ts rs cs out : List ForumRecord),
    List.Pairwise keyLE ts → List.Pairwise keyLE rs → List.Pairwise keyLE cs →
    (∀ x ∈ ts, x.kind = Kind.thread) →
    (∀ x ∈ rs, x.kind = Kind.response) →
    (∀ x ∈ cs, x.kind = Kind.comment) →
    mergeGo fuel ts rs cs = Except.ok out →
    List.Pairwise lexLE out := by
  intro fuel
  induction fuel with
  | zero =>
    intro ts rs cs out hts hrs hcs hkt hkr hkc h
    obtain ⟨rfl, rfl, rfl, rfl⟩ := mergeGo_zero_ok h
    exact List.Pairwise.nil
  | succ n ih =>
    intro ts rs cs out hts hrs hcs hkt hkr hkc h
    rcases mergeGo_ok_cases n h with ⟨rfl, rfl, rfl, rfl⟩ |
      ⟨td, rd, cd, hft, hfr, hfc, hbr⟩
    · exact List.Pairwise.nil
    rcases hbr with ⟨rec, ts2, rest, rfl, hc1, hrec, rfl⟩ |
      ⟨rec, rs2, rest, rfl, hc1, hc2, hrec, rfl⟩ |
      ⟨rec, cs2, rest, rfl, hc1, hc2, hrec, rfl⟩
    · -- thread branch: the emitted record has the least kindRank anyway
      obtain ⟨hvrec, htd⟩ := frontDate_cons_ok hft
      have hrd : rd = eKey rs := frontDate_ok_eKey hfr
      have hcd : cd = eKey cs := frontDate_ok_eKey hfc
      obtain ⟨hts1, hts2⟩ := List.pairwise_cons.mp hts
      have hkt2 : ∀ x ∈ ts2, x.kind = Kind.thread :=
        fun x hx => hkt x (List.mem_cons_of_mem rec hx)
      have htail := ih ts2 rs cs rest hts2 hrs hcs hkt2 hkr hkc hrec
      obtain ⟨-, hlb⟩ := mergeGo_sorted n ts2 rs cs rest hts2 hrs hcs hrec
      have hts2k : recKey rec ≤ eKey ts2 := by
        cases ts2 with
        | nil => exact validRecord_key_le_max hvrec
        | cons y l => exact hts1 y (List.mem_cons_self y l)
      have hmain : ∀ x ∈ rest, recKey rec ≤ recKey x := by
        intro x hx
        rcases hlb x hx with h1 | h1 | h1
        · exact le_trans hts2k h1
        · exact le_trans (show recKey rec ≤ eKey rs by omega) h1
        · exact le_trans (show recKey rec ≤ eKey cs by omega) h1
      refine List.pairwise_cons.mpr ⟨?_, htail⟩
      intro x hx
      rcases Nat.eq_or_lt_of_le (hmain x hx) with heq | hlt
      · refine Or.inr ⟨heq, ?_⟩
        rw [hkt rec (List.mem_cons_self rec ts2)]
        exact Nat.zero_le _
      · exact Or.inl hlt
    · -- response branch: no thread can tie, its date is strictly later
      obtain ⟨hvrec, hrdk⟩ := frontDate_cons_ok hfr
      have htd : td = eKey ts := frontDate_ok_eKey hft
      have hcd : cd = eKey cs := frontDate_ok_eKey hfc
      obtain ⟨hrs1, hrs2⟩ := List.pairwise_cons.mp hrs
      have hkr2 : ∀ x ∈ rs2, x.kind = Kind.response :=
        fun x hx => hkr x (List.mem_cons_of_mem rec hx)
      have htail := ih ts rs2 cs rest hts hrs2 hcs hkt hkr2 hkc hrec
      obtain ⟨-, hlb⟩ := mergeGo_sorted n ts rs2 cs rest hts hrs2 hcs hrec
      obtain ⟨hfilT, -, -⟩ := mergeGo_stable n ts rs2 cs rest hkt hkr2 hkc hrec
      have hrdlt : rd < td := by omega
      have hrs2k : recKey rec ≤ eKey rs2 := by
        cases rs2 with
        | nil => exact validRecord_key_le_max hvrec
        | cons y l => exact hrs1 y (List.mem_cons_self y l)
      have hmain : ∀ x ∈ rest, recKey rec ≤ recKey x := by
        intro x hx
        rcases hlb x hx with h1 | h1 | h1
        · exact le_trans (show recKey rec ≤ eKey ts by omega) h1
        · exact le_trans hrs2k h1
        · exact le_trans (show recKey rec ≤ eKey cs by omega) h1
      refine List.pairwise_cons.mpr ⟨?_, htail⟩
      intro x hx
      rcases Nat.eq_or_lt_of_le (hmain x hx) with heq | hlt
      · refine Or.inr ⟨heq, ?_⟩
        have hxk : x.kind ≠ Kind.thread := by
          intro hxt
          have hxmem : x ∈ ts := by
            rw [← hfilT]
            exact List.mem_filter.mpr ⟨hx, by simp [hxt]⟩
          have hge := sorted_eKey_le hts hxmem
          omega
        rw [hkr rec (List.mem_cons_self rec rs2)]
        cases hxk2 : x.kind with
        | thread => exact absurd hxk2 hxk
        | response => exact Nat.le_refl _
        | comment => decide
      · exact Or.inl hlt
    · -- comment branch: neither a thread nor a response can tie
      obtain ⟨hvrec, hcdk⟩ := frontDate_cons_ok hfc
      have htd : td = eKey ts := frontDate_ok_eKey hft
      have hrd : rd = eKey rs := frontDate_ok_eKey hfr
      obtain ⟨hcs1, hcs2⟩ := List.pairwise_cons.mp hcs
      have hkc2 : ∀ x ∈ cs2, x.kind = Kind.comment :=
        fun x hx => hkc x (List.mem_cons_of_mem rec hx)
      have htail := ih ts rs cs2 rest hts hrs hcs2 hkt hkr hkc2 hrec
      obtain ⟨-, hlb⟩ := mergeGo_sorted n ts rs cs2 rest hts hrs hcs2 hrec
      obtain ⟨hfilT, hfilR, -⟩ := mergeGo_stable n ts rs cs2 rest hkt hkr hkc2 hrec
      have hcdlt : cd < td ∧ cd < rd := by omega
      have hcs2k : recKey rec ≤ eKey cs2 := by
        cases cs2 with
        | nil => exact validRecord_key_le_max hvrec
        | cons y l => exact hcs1 y (List.mem_cons_self y l)
      have hmain : ∀ x ∈ rest, recKey rec ≤ recKey x := by
        intro x hx
        rcases hlb x hx with h1 | h1 | h1
        · exact le_trans (show recKey rec ≤ eKey ts by omega) h1
        · exact le_trans (show recKey rec ≤ eKey rs by omega) h1
        · exact le_trans hcs2k h1
      refine List.pairwise_cons.mpr ⟨?_, htail⟩
      intro x hx
      rcases Nat.eq_or_lt_of_le (hmain x hx) with heq | hlt
      · refine Or.inr ⟨heq, ?_⟩
        have hxkt : x.kind ≠ Kind.thread := by
          intro hxt
          have hxmem : x ∈ ts := by
            rw [← hfilT]
            exact List.mem_filter.mpr ⟨hx, by simp [hxt]⟩
          have hge := sorted_eKey_le hts hxmem
          omega
        have hxkr : x.kind ≠ Kind.response := by
          intro hxr
          have hxmem : x ∈ rs := by
            rw [← hfilR]
            exact List.mem_filter.mpr ⟨hx, by simp [hxr]⟩
          have hge := sorted_eKey_le hrs hxmem
          omega
        rw [hkc rec (List.mem_cons_self rec cs2)]
        cases hxk2 : x.kind with
        | thread => exact absurd hxk2 hxkt
        | response => exact absurd hxk2 hxkr
        | comment => exact Nat.le_refl _
      · exact Or.inl hlt

/-- Among valid dates only 9999-12-31 itself reaches the key of the
date.max sentinel. -/
theorem dateKey_lt_max_iff {y m d : Nat} (h : isValidDate y m d = true) :
    dateKey y m d < dateMax ↔ ¬ (y = 9999 ∧ m = 12 ∧ d = 31) := by
  have := isValidDate_bounds h
  simp only [dateKey, dateMax]
  omega

/-! Concrete records used by the claim theorems below.  Payloads differ
so that records of different scenarios stay distinguishable. -/

def recT2 : ForumRecord := ⟨2021, 2, 1, 2, Kind.thread⟩

def recR1 : ForumRecord := ⟨2021, 1, 1, 1, Kind.response⟩

def recC1 : ForumRecord := ⟨2021, 1, 1, 3, Kind.comment⟩

def cexRecC2 : ForumRecord := ⟨9999, 12, 31, 20, Kind.comment⟩

def w2t : ForumRecord := ⟨2021, 1, 1, 21, Kind.thread⟩

def w2c : ForumRecord := ⟨2021, 1, 2, 22, Kind.comment⟩

def w3t : ForumRecord := ⟨2021, 1, 5, 32, Kind.thread⟩

def w3r1 : ForumRecord := ⟨2021, 1, 3, 31, Kind.response⟩

def w3r2 : ForumRecord := ⟨2021, 1, 9, 33, Kind.response⟩

def cexRecC4 : ForumRecord := ⟨9999, 12, 31, 40, Kind.response⟩

def w4t : ForumRecord := ⟨2021, 6, 1, 41, Kind.thread⟩

def w4r : ForumRecord := ⟨2021, 5, 1, 42, Kind.response⟩

def cexRecC6 : ForumRecord := ⟨9999, 12, 31, 60, Kind.comment⟩

def w6c : ForumRecord := ⟨2021, 3, 5, 61, Kind.comment⟩

def bugRecC7 : ForumRecord := ⟨9999, 12, 31, 70, Kind.comment⟩

def cexRecC8r : ForumRecord := ⟨9999, 12, 31, 80, Kind.response⟩

def cexRecC8c : ForumRecord := ⟨9999, 12, 31, 81, Kind.comment⟩

def w8t : ForumRecord := ⟨2021, 4, 1, 82, Kind.thread⟩

def badRecC9 : ForumRecord := ⟨2021, 2, 30, 90, Kind.comment⟩

def okRecC9 : ForumRecord := ⟨2021, 2, 28, 91, Kind.thread⟩

def w10t1 : ForumRecord := ⟨2021, 5, 1, 100, Kind.thread⟩

def w10t2 : ForumRecord := ⟨2021, 1, 1, 101, Kind.thread⟩

def w10r : ForumRecord := ⟨2021, 2, 1, 102, Kind.response⟩

/-- C1: whenever merge_join_course_forums returns an output for three
sorted kind-pure inputs, records of equal dateKey appear in the fixed
order Thread, then Response, then Comment (the output is sorted for the
lexicographic order on dateKey refined by kindRank); in particular
merging Thread=[(2021-02-01,T2)], Response=[(2021-01-01,R1)],
Comment=[(2021-01-01,C1)] yields [R1, C1, T2]. -/
theorem merge_tie_break_order (ts rs cs out : List ForumRecord)
    (hts : List.Pairwise keyLE ts) (hrs : List.Pairwise keyLE rs)
    (hcs : List.Pairwise keyLE cs)
    (hkt : ∀ x ∈ ts, x.kind = Kind.thread)
    (hkr : ∀ x ∈ rs, x.kind = Kind.response)
    (hkc : ∀ x ∈ cs, x.kind = Kind.comment)
    (hok : merge_join_course_forums ts rs cs = Except.ok out) :
    List.Pairwise lexLE out ∧
      merge_join_course_forums [recT2] [recR1] [recC1] =
        Except.ok [recR1, recC1, recT2] :=
  ⟨mergeGo_lex _ ts rs cs out hts hrs hcs hkt hkr hkc hok, rfl⟩

theorem merge_tie_break_order_witness :
    List.Pairwise lexLE [recR1, recC1, recT2] ∧
      merge_join_course_forums [recT2] [recR1] [recC1] =
        Except.ok [recR1, recC1, recT2] :=
  merge_tie_break_order [recT2] [recR1] [recC1] [recR1, recC1, recT2]
    (by decide) (by decide) (by decide) (by decide) (by decide) (by decide) rfl

/-- C2 counterexample: the record dated 9999-12-31 is a valid calendar
date, yet merging it as the only comment raises IndexError instead of
returning a list of length 1, so length conservation fails as stated. -/
theorem merge_length_counterexample :
    validRecord cexRecC2 ∧
      merge_join_course_forums [] [] [cexRecC2] =
        Except.error MergeError.indexError ∧
      ¬ ∃ out, merge_join_course_forums [] [] [cexRecC2] = Except.ok out ∧
          out.length = ([] : List ForumRecord).length +
            ([] : List ForumRecord).length + [cexRecC2].length := by
  refine ⟨by decide, rfl, ?_⟩
  rintro ⟨out, hout, -⟩
  rw [show merge_join_course_forums [] [] [cexRecC2] =
      Except.error MergeError.indexError from rfl] at hout
  exact Except.noConfusion hout

/-- C2 (amended): when every input record carries a valid calendar date
strictly before 9999-12-31, the merge returns a list whose length is the
sum of the three input lengths. -/
theorem merge_length_conservation (ts rs cs : List ForumRecord)
    (h1 : goodList ts) (h2 : goodList rs) (h3 : goodList cs) :
    ∃ out, merge_join_course_forums ts rs cs = Except.ok out ∧
      out.length = ts.length + rs.length + cs.length := by
  obtain ⟨out, hout⟩ := mergeGo_good_ok
    (ts.length + rs.length + cs.length) ts rs cs h1 h2 h3 le_rfl
  exact ⟨out, hout, mergeGo_length _ ts rs cs out hout⟩

theorem merge_length_conservation_witness :
    ∃ out, merge_join_course_forums [w2t] [] [w2c] = Except.ok out ∧
      out.length = [w2t].length + ([] : List ForumRecord).length +
        [w2c].length :=
  merge_length_conservation [w2t] [] [w2c] (by decide) (by decide) (by decide)

/-- C3: whenever the three inputs are sorted by dateKey with valid
calendar dates and the merge returns an output, the output dateKeys are
non-decreasing from the first record to the last. -/
theorem merge_output_sorted (ts rs cs out : List ForumRecord)
    (_hv1 : allValid ts) (_hv2 : allValid rs) (_hv3 : allValid cs)
    (hts : List.Pairwise keyLE ts) (hrs : List.Pairwise keyLE rs)
    (hcs : List.Pairwise keyLE cs)
    (hok : merge_join_course_forums ts rs cs = Except.ok out) :
    List.Pairwise keyLE out :=
  (mergeGo_sorted _ ts rs cs out hts hrs hcs hok).1

theorem merge_output_sorted_witness : List.Pairwise keyLE [w3r1, w3t, w3r2] :=
  merge_output_sorted [w3t] [w3r1, w3r2] [] [w3r1, w3t, w3r2]
    (by decide) (by decide) (by decide) (by decide) (by decide) (by decide) rfl

/-- C4 counterexample: with a single valid response dated 9999-12-31 the
merge raises IndexError and returns no list at all, so no returned
multiset can equal the input multiset. -/
theorem merge_multiset_counterexample :
    validRecord cexRecC4 ∧
      merge_join_course_forums [] [cexRecC4] [] =
        Except.error MergeError.indexError ∧
      ¬ ∃ out, merge_join_course_forums [] [cexRecC4] [] = Except.ok out ∧
          out.Perm ([] ++ [cexRecC4] ++ []) := by
  refine ⟨by decide, rfl, ?_⟩
  rintro ⟨out, hout, -⟩
  rw [show merge_join_course_forums [] [cexRecC4] [] =
      Except.error MergeError.indexError from rfl] at hout
  exact Except.noConfusion hout

/-- C4 (amended): when every input record carries a valid calendar date
strictly before 9999-12-31, the merge returns a list that is a
permutation of the concatenated inputs: no record is dropped, duplicated
or altered. -/
theorem merge_multiset_permutation (ts rs cs : List ForumRecord)
    (h1 : goodList ts) (h2 : goodList rs) (h3 : goodList cs) :
    ∃ out, merge_join_course_forums ts rs cs = Except.ok out ∧
      out.Perm (ts ++ rs ++ cs) := by
  obtain ⟨out, hout⟩ := mergeGo_good_ok
    (ts.length + rs.length + cs.length) ts rs cs h1 h2 h3 le_rfl
  exact ⟨out, hout, mergeGo_perm _ ts rs cs out hout⟩

theorem merge_multiset_permutation_witness :
    ∃ out, merge_join_course_forums [w4t] [w4r] [] = Except.ok out ∧
      out.Perm ([w4t] ++ [w4r] ++ []) :=
  merge_multiset_permutation [w4t] [w4r] [] (by decide) (by decide) (by decide)

/-- C5 counterexample: 9999-12-31 is itself a valid calendar date whose
key is not strictly below the date.max sentinel key, so the sentinel
does not compare strictly greater than every valid date. -/
theorem sentinel_counterexample :
    isValidDate 9999 12 31 = true ∧ ¬ dateKey 9999 12 31 < dateMax :=
  ⟨by decide, by decide⟩

/-- C5 (amended): the sentinel an exhausted stream reports is date.max;
it is an upper bound of every valid dateKey and compares strictly
greater than every valid date except 9999-12-31 itself, which equals it. -/
theorem sentinel_dominates (y m d : Nat) (h : isValidDate y m d = true) :
    frontDate [] = Except.ok dateMax ∧
    dateKey y m d ≤ dateMax ∧
    (dateKey y m d < dateMax ↔ ¬ (y = 9999 ∧ m = 12 ∧ d = 31)) :=
  ⟨rfl, dateKey_le_max h, dateKey_lt_max_iff h⟩

theorem sentinel_dominates_witness :
    frontDate [] = Except.ok dateMax ∧
    dateKey 2021 1 1 ≤ dateMax ∧
    (dateKey 2021 1 1 < dateMax ↔ ¬ (2021 = 9999 ∧ 1 = 12 ∧ 1 = 31)) :=
  sentinel_dominates 2021 1 1 (by decide)

/-- C6 counterexample: merging the non-empty comment list whose only
record is the valid date 9999-12-31 with two empty lists raises
IndexError instead of returning that list unchanged. -/
theorem merge_identity_counterexample :
    validRecord cexRecC6 ∧ ([cexRecC6] : List ForumRecord) ≠ [] ∧
      ¬ merge_join_course_forums [] [] [cexRecC6] = Except.ok [cexRecC6] := by
  refine ⟨by decide, by simp, ?_⟩
  intro hout
  rw [show merge_join_course_forums [] [] [cexRecC6] =
      Except.error MergeError.indexError from rfl] at hout
  exact Except.noConfusion hout

/-- C6 (amended): merging three empty lists yields the empty list, and a
single stream passes through unchanged in original order: in the thread
position for any list of valid dates, in the response and comment
positions for any list of valid dates strictly before 9999-12-31. -/
theorem merge_identity_on_empties :
    merge_join_course_forums [] [] [] = Except.ok [] ∧
    (∀ S : List ForumRecord, allValid S →
      merge_join_course_forums S [] [] = Except.ok S) ∧
    (∀ S : List ForumRecord, goodList S →
      merge_join_course_forums [] S [] = Except.ok S ∧
      merge_join_course_forums [] [] S = Except.ok S) := by
  refine ⟨rfl, ?_, ?_⟩
  · intro S hv
    exact mergeGo_threads_only S _ (by simp) hv
  · intro S hv
    exact ⟨mergeGo_responses_only S _ (by simp) hv,
      mergeGo_comments_only S _ (by simp) hv⟩

theorem merge_identity_on_empties_witness :
    merge_join_course_forums [w6c] [] [] = Except.ok [w6c] ∧
    merge_join_course_forums [] [w6c] [] = Except.ok [w6c] ∧
    merge_join_course_forums [] [] [w6c] = Except.ok [w6c] :=
  ⟨merge_identity_on_empties.2.1 [w6c] (by decide),
   (merge_identity_on_empties.2.2 [w6c] (by decide)).1,
   (merge_identity_on_empties.2.2 [w6c] (by decide)).2⟩

/-- C7: evaluation of the out-of-bounds bug.  With the valid record
dated 9999-12-31 as the only comment, all three peeks yield date.max,
the Thread branch fires although the thread stream is exhausted, and
threads[t_index] with t_index = len(threads) raises IndexError: the
merge does select an exhausted stream. -/
theorem merge_out_of_bounds_bug :
    validRecord bugRecC7 ∧
      merge_join_course_forums [] [] [bugRecC7] =
        Except.error MergeError.indexError :=
  ⟨by decide, rfl⟩

/-- C8 counterexample: on valid 9999-12-31 records the loop is stopped
by IndexError with the response and comment indices still at 0, not by
the all-streams-exhausted condition. -/
theorem merge_termination_counterexample :
    validRecord cexRecC8r ∧ validRecord cexRecC8c ∧
      merge_join_course_forums [] [cexRecC8r] [cexRecC8c] =
        Except.error MergeError.indexError ∧
      ¬ ∃ out, merge_join_course_forums [] [cexRecC8r] [cexRecC8c] =
          Except.ok out := by
  refine ⟨by decide, by decide, rfl, ?_⟩
  rintro ⟨out, hout⟩
  rw [show merge_join_course_forums [] [cexRecC8r] [cexRecC8c] =
      Except.error MergeError.indexError from rfl] at hout
  exact Except.noConfusion hout

/-- C8 (amended): the merge loop always terminates, within one iteration
per input record (any fuel at least the total length computes the same
value), and when every dateKey is valid and strictly before 9999-12-31
it stops only by exhausting all three streams, returning normally. -/
theorem merge_terminates (ts rs cs : List ForumRecord) :
    (∀ fuel, ts.length + rs.length + cs.length ≤ fuel →
      mergeGo fuel ts rs cs = merge_join_course_forums ts rs cs) ∧
    (goodList ts → goodList rs → goodList cs →
      ∃ out, merge_join_course_forums ts rs cs = Except.ok out) := by
  constructor
  · intro fuel hf
    exact mergeGo_fuel_ge fuel ts rs cs hf
  · intro h1 h2 h3
    exact mergeGo_good_ok _ ts rs cs h1 h2 h3 le_rfl

theorem merge_terminates_witness :
    mergeGo 5 [w8t] [] [] = merge_join_course_forums [w8t] [] [] ∧
    ∃ out, merge_join_course_forums [w8t] [] [] = Except.ok out :=
  ⟨(merge_terminates [w8t] [] []).1 5 (by decide),
   (merge_terminates [w8t] [] []).2 (by decide) (by decide) (by decide)⟩

/-- C9: if every input record has a valid dateKey the merge never raises
the invalid-date error; if some record has an invalid dateKey the merge
raises an error and produces no output, and that error is exactly the
invalid-date error (raised when the offending record is first examined)
whenever no valid record is dated 9999-12-31. -/
theorem merge_invalid_date_raises (ts rs cs : List ForumRecord) :
    (allValid ts → allValid rs → allValid cs →
      merge_join_course_forums ts rs cs ≠ Except.error MergeError.dataError) ∧
    (¬ (allValid ts ∧ allValid rs ∧ allValid cs) →
      ∃ e, merge_join_course_forums ts rs cs = Except.error e) ∧
    (¬ (allValid ts ∧ allValid rs ∧ allValid cs) →
      belowMax ts → belowMax rs → belowMax cs →
      merge_join_course_forums ts rs cs = Except.error MergeError.dataError) := by
  refine ⟨?_, ?_, ?_⟩
  · intro h1 h2 h3
    exact mergeGo_no_data_error _ ts rs cs h1 h2 h3
  · intro hinv
    cases hres : merge_join_course_forums ts rs cs with
    | ok out => exact absurd (mergeGo_valid _ ts rs cs out hres) hinv
    | error e => exact ⟨e, rfl⟩
  · intro hinv hb1 hb2 hb3
    cases hres : merge_join_course_forums ts rs cs with
    | ok out => exact absurd (mergeGo_valid _ ts rs cs out hres) hinv
    | error e =>
      cases e with
      | dataError => rfl
      | indexError =>
        exact absurd hres
          (mergeGo_no_index_error _ ts rs cs hb1 hb2 hb3 le_rfl)

theorem merge_invalid_date_raises_witness :
    merge_join_course_forums [] [] [badRecC9] =
      Except.error MergeError.dataError ∧
    merge_join_course_forums [okRecC9] [] [] ≠
      Except.error MergeError.dataError :=
  ⟨(merge_invalid_date_raises [] [] [badRecC9]).2.2
      (by decide) (by decide) (by decide) (by decide),
   (merge_invalid_date_raises [okRecC9] [] []).1
      (by decide) (by decide) (by decide)⟩

/-- C10: whenever the merge returns an output for kind-pure inputs, the
subsequence of the output drawn from each input list is that list
itself, in its original order, even if the inputs are unsorted. -/
theorem merge_stable_per_kind (ts rs cs out : List ForumRecord)
    (hkt : ∀ x ∈ ts, x.kind = Kind.thread)
    (hkr : ∀ x ∈ rs, x.kind = Kind.response)
    (hkc : ∀ x ∈ cs, x.kind = Kind.comment)
    (hok : merge_join_course_forums ts rs cs = Except.ok out) :
    out.filter (fun x => x.kind == Kind.thread) = ts ∧
    out.filter (fun x => x.kind == Kind.response) = rs ∧
    out.filter (fun x => x.kind == Kind.comment) = cs :=
  mergeGo_stable _ ts rs cs out hkt hkr hkc hok

theorem merge_stable_per_kind_witness :
    List.filter (fun x => x.kind == Kind.thread) [w10r, w10t1, w10t2] =
      [w10t1, w10t2] ∧
    List.filter (fun x => x.kind == Kind.response) [w10r, w10t1, w10t2] =
      [w10r] ∧
    List.filter (fun x => x.kind == Kind.comment) [w10r, w10t1, w10t2] = [] :=
  merge_stable_per_kind [w10t1, w10t2] [w10r] [] [w10r, w10t1, w10t2]
    (by decide) (by decide) (by decide) rfl

end DataForums
